import Mathlib

/-!
Shallow embedding of `src/data/zip_to_sqllite.py`: a single-threaded pipeline
that walks zip archives, parses forex price lines from the `.txt` entries and
loads them into one SQLite table per `(instrument, timeframe)` pair.

Modelling conventions:
* Python strings are Lean `String`s; character-level work happens on `toList`.
* Python `float` values are modelled as exact rationals `ℚ`; `float(s)` is a
  decimal parser over the grammar `[+-] digits [. digits] [(e|E) [+-] digits]`
  (the forms occurring in the data; `inf`/`nan`/underscores are outside the
  modelled domain).  `int(float(s))` truncates toward zero, as CPython does.
* `csv.reader(..., delimiter=',')` on quote-free lines is a comma split; an
  empty line yields the empty row `[]`, exactly as `csv.reader` does.
* The SQLite database is an association list from table name to a list of
  rows in insertion order; `INSERT OR IGNORE` under `UNIQUE(date, time)`
  drops a row whose `(date, time)` key is already present.
* Console diagnostics (`print` calls) are a structured `Diag` value carrying
  the same data the message interpolates.
-/

namespace ZipToSqlite

/-- Python `str.strip()`: drop whitespace from both ends (ASCII whitespace; the
data only contains ASCII). -/
def stripList (l : List Char) : List Char :=
  ((l.dropWhile Char.isWhitespace).reverse.dropWhile Char.isWhitespace).reverse

/-- Python `str.strip()` on `String`. -/
def pyStrip (s : String) : String :=
  ⟨stripList s.toList⟩

/-- Python `str.replace(c, '')`: left-to-right scan deleting every occurrence of a
single character (the script only ever replaces `'.'` and `':'` by `''`). -/
def removeCharList (c : Char) : List Char → List Char
  | [] => []
  | x :: xs => if x = c then removeCharList c xs else x :: removeCharList c xs

/-- Python `sub in s` for a single-character `sub`. -/
def hasChar (s : String) (c : Char) : Bool :=
  s.toList.contains c

/-- Does `l` start with `p`? (helper for the substring test). -/
def listStartsWith : List Char → List Char → Bool
  | _, [] => true
  | [], _ :: _ => false
  | h :: hs, n :: ns => h = n && listStartsWith hs ns

/-- Python `needle in hay` for strings: some tail of `hay` starts with `needle`. -/
def listHasSub (hay needle : List Char) : Bool :=
  listStartsWith hay needle ||
    match hay with
    | [] => false
    | _ :: t => listHasSub t needle

/-- Python `'#' in cell` (line 66 of the script). -/
def hasHash (cell : String) : Bool :=
  hasChar cell '#'

/-- Python `'Time' in cell` (line 66 of the script). -/
def hasTimeSub (cell : String) : Bool :=
  listHasSub cell.toList "Time".toList

/-- Python `str.endswith(suffix)`. -/
def pyEndsWith (s suf : String) : Bool :=
  listStartsWith s.toList.reverse suf.toList.reverse

/-- Python `str.split(c)` for a one-character separator, Python semantics:
`"a__b".split("_") = ["a", "", "b"]`, `"".split("_") = [""]`. -/
def splitOnChar (c : Char) : List Char → List (List Char)
  | [] => [[]]
  | x :: xs =>
    let r := splitOnChar c xs
    if x = c then [] :: r
    else
      match r with
      | [] => [[x]]
      | h :: t => (x :: h) :: t

/-- Python `os.path.basename`: the part after the last `/` (zip member names use
`/` as separator). -/
def basenameList (l : List Char) : List Char :=
  (splitOnChar '/' l).getLastD []

/-! ### Date and time normalization (lines 78–87) -/

/-- Line 78–80: `date_str = row[0].strip().replace('.', '')`, accepted only
when the result has exactly 8 characters, else `ValueError`. -/
def dateNorm (s : String) : Option String :=
  let d : String := ⟨removeCharList '.' (pyStrip s).toList⟩
  if d.length = 8 then some d else none

/-- Lines 83–87: `time_str = row[1].strip()`; if it contains `:`, remove all
colons and append `"00"`; accepted only when the result has exactly
6 characters, else `ValueError`. -/
def timeNorm (s : String) : Option String :=
  let t := pyStrip s
  let t2 : String := if hasChar t ':' then (⟨removeCharList ':' t.toList⟩ : String) ++ "00" else t
  if t2.length = 6 then some t2 else none

/-! ### `float` and `int(float(...))` (lines 90–94) -/

/-- Numeric value of a digit string (most significant first). -/
def digitsVal (l : List Char) : Nat :=
  l.foldl (fun a c => 10 * a + (c.toNat - 48)) 0

/-- Exponent digits after an optional sign: nonempty all-digit string. -/
def pyExpDigits (u : List Char) : Option Int :=
  if u ≠ [] && u.all Char.isDigit then some (digitsVal u) else none

/-- Exponent after `e`/`E`: optional sign then digits. -/
def pyExpSigned : List Char → Option Int
  | '+' :: u => pyExpDigits u
  | '-' :: u => (pyExpDigits u).map (fun e => -e)
  | u => pyExpDigits u

/-- The tail after the mantissa: empty, or `e`/`E` followed by a signed
exponent. Returns the exponent. -/
def pyExp : List Char → Option Int
  | [] => some 0
  | 'e' :: t => pyExpSigned t
  | 'E' :: t => pyExpSigned t
  | _ => none

/-- The rational `sgn · m · 10^e / 10^fracLen`: the exact value of a decimal
string with sign `sgn`, mantissa digits `m` (fraction part `fracLen` digits
long) and exponent `e`.  All arithmetic is on `Int`/`Nat`, with one final
`mkRat`. -/
def ratOfDec (sgn : Int) (m : Nat) (fracLen : Nat) (e : Int) : ℚ :=
  if 0 ≤ e then mkRat (sgn * m * 10 ^ e.toNat) (10 ^ fracLen)
  else mkRat (sgn * m) (10 ^ fracLen * 10 ^ (-e).toNat)

/-- Unsigned decimal with sign already consumed:
`digits [. digits] [exp]`, at least one mantissa digit required. -/
def pyFloatMag (sgn : Int) (l : List Char) : Option ℚ :=
  let ip := l.takeWhile Char.isDigit
  let r1 := l.dropWhile Char.isDigit
  match r1 with
  | '.' :: t =>
    let fp := t.takeWhile Char.isDigit
    let r2 := t.dropWhile Char.isDigit
    if ip.isEmpty && fp.isEmpty then none
    else
      (pyExp r2).map (fun e =>
        ratOfDec sgn (digitsVal ip * 10 ^ fp.length + digitsVal fp) fp.length e)
  | r2 =>
    if ip.isEmpty then none
    else (pyExp r2).map (fun e => ratOfDec sgn (digitsVal ip) 0 e)

/-- Optional sign then magnitude. -/
def pyFloatSigned : List Char → Option ℚ
  | '+' :: t => pyFloatMag 1 t
  | '-' :: t => pyFloatMag (-1) t
  | t => pyFloatMag 1 t

/-- Python `float(s)`: Python strips surrounding whitespace before parsing. -/
def pyFloat (s : String) : Option ℚ :=
  pyFloatSigned (stripList s.toList)

/-- Truncation `int(q)` for a float `q`: truncation toward zero, as CPython's `int()`
does on a float. -/
def truncToInt (q : ℚ) : Int :=
  Int.tdiv q.num (q.den : Int)

/-! ### Price records and per-row parsing (lines 56–101) -/

/-- One parsed line, as inserted into a table: columns
`(date, time, open, high, low, close, volume)`. -/
structure PriceRecord where
  date : String
  time : String
  open_val : ℚ
  high_val : ℚ
  low_val : ℚ
  close_val : ℚ
  volume : Int
deriving DecidableEq, Repr

/-- One console diagnostic, with the data the corresponding `print`
interpolates. -/
inductive Diag where
  /-- Line 41: entry name with fewer than 4 `_`-separated segments. -/
  | badName (entry : String)
  /-- Line 73: row with fewer than 7 columns (and some non-blank cell). -/
  | shortRow (lineNo : Nat) (entry : String) (cols : Nat)
  /-- Line 100: `ValueError` while parsing the row's fields. -/
  | parseError (lineNo : Nat) (entry : String) (row : List String)
  /-- Line 121: `zipfile.BadZipFile`. -/
  | corruptZip (path : String)
deriving DecidableEq, Repr

/-- Is a cell blank after stripping? (`cell.strip() == ''`). -/
def isBlankCell (c : String) : Bool :=
  pyStrip c == ""

/-- Lines 76–97, the `try` body: normalize date and time, parse the four
prices as floats and the volume as a truncated float.  Any failure is the
`ValueError` caught at line 99.  The row has at least 7 cells when this is
called, so the `getD` defaults are never used (no `IndexError`). -/
def parseFields (row : List String) : Option PriceRecord :=
  match dateNorm (row.getD 0 ""), timeNorm (row.getD 1 ""),
      pyFloat (row.getD 2 ""), pyFloat (row.getD 3 ""),
      pyFloat (row.getD 4 ""), pyFloat (row.getD 5 ""),
      pyFloat (row.getD 6 "") with
  | some d, some t, some o, some h, some lo, some c, some v =>
    some ⟨d, t, o, h, lo, c, truncToInt v⟩
  | _, _, _, _, _, _, _ => none

/-- Lines 56–101 for one enumerated row `(i, row)`: the record appended to
the batch (if any) and the diagnostic printed (if any). -/
def rowOutcome (i : Nat) (name : String) (row : List String) :
    Option PriceRecord × Option Diag :=
  if row.isEmpty then (none, none)
  else if row.all isBlankCell then (none, none)
  else if row.any hasHash || row.any hasTimeSub then (none, none)
  else if row.length < 7 then
    if row.any (fun c => !(isBlankCell c)) then
      (none, some (Diag.shortRow (i + 1) name row.length))
    else (none, none)
  else
    match parseFields row with
    | some rec => (some rec, none)
    | none => (none, some (Diag.parseError (i + 1) name row))

/-! ### The database (tables, `INSERT OR IGNORE`, lines 17–29 and 104–118) -/

/-- A table's rows, in insertion order. -/
abbrev Table := List PriceRecord

/-- The store: table name to rows, in creation order. -/
abbrev DB := List (String × Table)

/-- Do two records collide on the `UNIQUE(date, time)` constraint? -/
def keyMatch (a b : PriceRecord) : Bool :=
  a.date == b.date && a.time == b.time

/-- One `INSERT OR IGNORE` row insert: dropped silently when some existing row
has the same `(date, time)` key, appended otherwise. -/
def insertOrIgnore (tbl : Table) (r : PriceRecord) : Table :=
  if tbl.any (fun r0 => keyMatch r0 r) then tbl else tbl ++ [r]

/-- Batched `executemany` with `INSERT OR IGNORE`: the rows of the batch are
inserted one at a time, in order. -/
def insertBatch (tbl : Table) (batch : List PriceRecord) : Table :=
  batch.foldl insertOrIgnore tbl

/-- Table lookup by name. -/
def dbLookup : DB → String → Option Table
  | [], _ => none
  | e :: rest, n => if e.1 = n then some e.2 else dbLookup rest n

/-- Idempotent `CREATE TABLE IF NOT EXISTS` (lines 17-29): a fresh empty table unless
the name already exists. -/
def createTable (db : DB) (name : String) : DB :=
  if (dbLookup db name).isSome then db else db ++ [(name, [])]

/-- Insert a batch into the named table.  In the pipeline the table always
exists (created at line 47); on a missing name this is a no-op. -/
def dbInsert (db : DB) (name : String) (batch : List PriceRecord) : DB :=
  db.map (fun e => if e.1 = name then (e.1, insertBatch e.2 batch) else e)

/-! ### Per-entry processing (lines 34–118) -/

/-- Model of `csv.reader` on one quote-free line: an empty line yields the empty row,
any other line splits on commas. -/
def lineToRow (s : String) : List String :=
  if s = "" then [] else (splitOnChar ',' s.toList).map (fun l => (⟨l⟩ : String))

/-- Lines 39–46: split the base filename on `_`; with at least 4 segments
the table is `parts[2] ++ "_" ++ parts[3].split('.')[0]`, otherwise the
entry name is malformed. -/
def tableNameOf (innerName : String) : Option String :=
  let parts := splitOnChar '_' (basenameList innerName.toList)
  if parts.length < 4 then none
  else
    some ((⟨parts.getD 2 []⟩ : String) ++ "_" ++
      (⟨(splitOnChar '.' (parts.getD 3 [])).headD []⟩ : String))

/-- The batched insert threshold of line 104. -/
def batchLimit : Nat := 10000

/-- Lines 56–118: fold the enumerated rows, accumulating the batch, flushing
it at `batchLimit` and at end of entry.  Returns the resulting store and the
printed diagnostics in order. -/
def processLines (name tbl : String) (i : Nat) (db : DB)
    (batch : List PriceRecord) : List (List String) → DB × List Diag
  | [] => (if batch.isEmpty then db else dbInsert db tbl batch, [])
  | row :: rest =>
    match rowOutcome i name row with
    | (some rec, _) =>
      let batch2 := batch ++ [rec]
      if batchLimit ≤ batch2.length then
        processLines name tbl (i + 1) (dbInsert db tbl batch2) [] rest
      else
        processLines name tbl (i + 1) db batch2 rest
    | (none, d) =>
      let r := processLines name tbl (i + 1) db batch rest
      (r.1, d.toList ++ r.2)

/-- One archive entry: its name inside the archive and its decoded content,
already split into lines (`f.read().decode('utf-8').splitlines()`). -/
abbrev ZEntry := String × List String

/-- Lines 34–118 for one entry: non-`.txt` entries are skipped silently,
badly named entries are reported and skipped, otherwise the table is
created and every line is processed. -/
def processEntry (db : DB) (e : ZEntry) : DB × List Diag :=
  if pyEndsWith e.1 ".txt" = false then (db, [])
  else
    match tableNameOf e.1 with
    | none => (db, [Diag.badName e.1])
    | some tbl =>
      processLines e.1 tbl 0 (createTable db tbl) [] (e.2.map lineToRow)

/-- An archive on disk: `none` when opening raises `zipfile.BadZipFile`,
otherwise the list of entries in `namelist()` order. -/
abbrev ZArchive := Option (List ZEntry)

/-- Lines 31–121 (`process_zip_file`): a corrupted archive is reported and
skipped; a valid one has each entry processed in order. -/
def processZip (db : DB) (path : String) (arc : ZArchive) : DB × List Diag :=
  match arc with
  | none => (db, [Diag.corruptZip path])
  | some entries =>
    entries.foldl
      (fun acc e =>
        let r := processEntry acc.1 e
        (r.1, acc.2 ++ r.2))
      (db, [])

/-- The loop of `main` (lines 131–134) over an already-resolved list of
`(path, archive)` pairs. -/
def runArchives (db : DB) : List (String × ZArchive) → DB × List Diag
  | [] => (db, [])
  | a :: rest =>
    let r := processZip db a.1 a.2
    let r2 := runArchives r.1 rest
    (r2.1, r.2 ++ r2.2)

/-- The `main` function (lines 123-137).  `init_db` deletes any existing store before
connecting, so the run starts from the empty store whatever `prior` holds;
the directory listing is filtered to `*.zip` and sorted; `fs` resolves each
path to its archive content. -/
def mainRun (prior : DB) (fs : String → ZArchive) (listing : List String) :
    DB × List Diag :=
  let zips := List.insertionSort (fun a b => a ≤ b)
    (listing.filter (fun f => pyEndsWith f ".zip"))
  runArchives [] (zips.map (fun p => (p, fs p)))

/-! ### Derived notions used by the claims -/

/-- Is a diagnostic the corrupted-archive report of line 121? -/
def isCorruptDiag : Diag → Bool
  | Diag.corruptZip _ => true
  | _ => false

/-- The `UNIQUE(date, time)` key of a row. -/
def keyOf (r : PriceRecord) : String × String :=
  (r.date, r.time)

/-- The uniqueness invariant of a table: no two rows share a
`(date, time)` key. -/
def uniqKeys (tbl : Table) : Prop :=
  (tbl.map keyOf).Nodup

instance (tbl : Table) : Decidable (uniqKeys tbl) :=
  inferInstanceAs (Decidable ((tbl.map keyOf).Nodup))

/-! ### Supporting lemmas -/

theorem length_mk_list (l : List Char) : (String.mk l).length = l.length :=
  rfl

theorem toList_mk_list (l : List Char) : (String.mk l).toList = l :=
  rfl

theorem length_removeCharList (c : Char) :
    ∀ l : List Char, (removeCharList c l).length + l.count c = l.length := by
  intro l
  induction l with
  | nil => simp [removeCharList]
  | cons x xs ih =>
    by_cases hx : x = c <;>
      simp [removeCharList, hx, List.count_cons] <;> omega

/-- The colon branch of `timeNorm`, lines 84–87. -/
theorem timeNorm_colon (s : String) (hc : hasChar (pyStrip s) ':' = true) :
    timeNorm s =
      (if (removeCharList ':' (pyStrip s).toList).length + 2 = 6
       then some ((String.mk (removeCharList ':' (pyStrip s).toList)) ++ "00")
       else none) := by
  have h00 : ("00" : String).length = 2 := rfl
  simp only [timeNorm, hc, if_true, String.length_append, length_mk_list, h00]

/-- The colon-free branch of `timeNorm`, lines 83 and 86. -/
theorem timeNorm_nocolon (s : String) (hc : hasChar (pyStrip s) ':' = false) :
    timeNorm s =
      (if (pyStrip s).length = 6 then some (pyStrip s) else none) := by
  simp only [timeNorm, hc, if_false, Bool.false_eq_true]

/-! ### C1 -/

/-- C1: the CSV line `"2023.05.01,13:45,1.1,1.2,1.05,1.15,1000"` read from an
entry named `EUR_USD_EURUSD_H1.txt` goes to the table derived as segment 2
plus `_` plus segment 3 without its extension, i.e. `EURUSD_H1`, and parses
to the record `("20230501", "134500", 1.1, 1.2, 1.05, 1.15, 1000)`, which is
inserted into that table. -/
theorem c1_example_line :
    tableNameOf "EUR_USD_EURUSD_H1.txt" = some "EURUSD_H1" ∧
    processEntry [] ("EUR_USD_EURUSD_H1.txt",
        ["2023.05.01,13:45,1.1,1.2,1.05,1.15,1000"]) =
      ([("EURUSD_H1",
         [⟨"20230501", "134500", (1.1 : ℚ), (1.2 : ℚ), (1.05 : ℚ), (1.15 : ℚ),
           1000⟩])], []) := by
  have e1 : (1.1 : ℚ) = mkRat 11 10 := by
    norm_num [Rat.mkRat_eq_divInt, Rat.divInt_eq_div]
  have e2 : (1.2 : ℚ) = mkRat 6 5 := by
    norm_num [Rat.mkRat_eq_divInt, Rat.divInt_eq_div]
  have e3 : (1.05 : ℚ) = mkRat 21 20 := by
    norm_num [Rat.mkRat_eq_divInt, Rat.divInt_eq_div]
  have e4 : (1.15 : ℚ) = mkRat 23 20 := by
    norm_num [Rat.mkRat_eq_divInt, Rat.divInt_eq_div]
  rw [e1, e2, e3, e4]
  exact ⟨by decide, by decide⟩

/-! ### C2 -/

/-- C2: date normalization strips surrounding whitespace and removes every
`.`; the field is accepted exactly when the result has 8 characters, in
which case that result is the stored date.  `"2023.05.01"` normalizes to
`"20230501"`. -/
theorem c2_date_normalization :
    dateNorm "2023.05.01" = some "20230501" ∧
    (∀ s : String, (dateNorm s).isSome = true ↔
      (removeCharList '.' (pyStrip s).toList).length = 8) ∧
    (∀ s d : String, dateNorm s = some d →
      d.toList = removeCharList '.' (pyStrip s).toList ∧ d.length = 8) := by
  refine ⟨by decide, fun s => ?_, fun s d h => ?_⟩
  · simp only [dateNorm, length_mk_list]
    split <;> simp_all
  · by_cases h8 : (removeCharList '.' (pyStrip s).toList).length = 8
    · simp only [dateNorm, length_mk_list, h8, if_true, Option.some.injEq] at h
      rw [← h]
      exact ⟨rfl, h8⟩
    · simp only [dateNorm, length_mk_list] at h
      rw [if_neg h8] at h
      exact Option.noConfusion h

/-- Witness for C2 at the concrete inputs of the claim. -/
theorem c2_date_normalization_witness :
    "20230501".toList = removeCharList '.' (pyStrip "2023.05.01").toList ∧
    ("20230501" : String).length = 8 :=
  c2_date_normalization.2.2 "2023.05.01" "20230501" (by decide)

/-! ### C3 -/

/-- C3: time normalization strips surrounding whitespace; when a colon is
present all colons are removed and `"00"` is appended; the field is
accepted exactly when the final string has 6 characters.  `"13:45"`
normalizes to `"134500"` and `"134500"` passes through unchanged. -/
theorem c3_time_normalization :
    timeNorm "13:45" = some "134500" ∧
    timeNorm "134500" = some "134500" ∧
    (∀ s : String, hasChar (pyStrip s) ':' = true →
      timeNorm s =
        (if (removeCharList ':' (pyStrip s).toList).length + 2 = 6
         then some ((String.mk (removeCharList ':' (pyStrip s).toList)) ++ "00")
         else none)) ∧
    (∀ s : String, hasChar (pyStrip s) ':' = false →
      timeNorm s =
        (if (pyStrip s).length = 6 then some (pyStrip s) else none)) := by
  exact ⟨by decide, by decide, timeNorm_colon, timeNorm_nocolon⟩

/-- Witness for C3 at the concrete inputs of the claim. -/
theorem c3_time_normalization_witness :
    (timeNorm "13:45" =
      (if (removeCharList ':' (pyStrip "13:45").toList).length + 2 = 6
       then some ((String.mk (removeCharList ':' (pyStrip "13:45").toList)) ++ "00")
       else none)) ∧
    (timeNorm "134500" =
      (if (pyStrip "134500").length = 6 then some (pyStrip "134500") else none)) :=
  ⟨c3_time_normalization.2.2.1 "13:45" (by decide),
   c3_time_normalization.2.2.2 "134500" (by decide)⟩

/-! ### C9 -/

/-- C9 fails as stated: `"1:2:34"` is a time field containing two colons,
yet normalization yields the 6-character `"123400"` and the field is
accepted — so a two-colon time is not always reduced to 8 characters and
not always rejected. -/
theorem c9_counterexample :
    ("1:2:34").toList.count ':' = 2 ∧ timeNorm "1:2:34" = some "123400" := by
  decide

/-- C9 amended: for every time field whose stripped form has two colons and
8 characters (the `HH:MM:SS` shape such as `"13:45:30"`), normalization
removes both colons and appends `"00"`, producing an 8-character string, so
the field is rejected — well-formed colon-separated times with explicit
seconds are never accepted. -/
theorem c9_two_colon_times_amended :
    ∀ s : String, (pyStrip s).toList.count ':' = 2 → (pyStrip s).length = 8 →
      timeNorm s = none := by
  intro s hcount hlen
  have hmem : (':' : Char) ∈ (pyStrip s).toList :=
    List.count_pos_iff.mp (by omega)
  have hc : hasChar (pyStrip s) ':' = true := by
    simpa [hasChar] using hmem
  have hrm : (removeCharList ':' (pyStrip s).toList).length = 6 := by
    have := length_removeCharList ':' (pyStrip s).toList
    have hl : (pyStrip s).toList.length = 8 := hlen
    omega
  rw [timeNorm_colon s hc,
    if_neg (by omega : ¬ (removeCharList ':' (pyStrip s).toList).length + 2 = 6)]

/-- Witness for the amended C9 at `"13:45:30"`. -/
theorem c9_two_colon_times_witness :
    (pyStrip "13:45:30").toList.count ':' = 2 ∧
    (pyStrip "13:45:30").length = 8 ∧
    timeNorm "13:45:30" = none :=
  ⟨by decide, by decide, c9_two_colon_times_amended "13:45:30" (by decide) (by decide)⟩

/-! ### C5 -/

theorem any_not_blank_of_all_false (row : List String)
    (h : row.all isBlankCell = false) :
    row.any (fun c => !(isBlankCell c)) = true := by
  have h' : ¬ (row.all isBlankCell = true) := by simp [h]
  rw [List.all_eq_true] at h'
  push_neg at h'
  obtain ⟨x, hx, hpx⟩ := h'
  rw [List.any_eq_true]
  exact ⟨x, hx, by simp [Bool.eq_false_iff.mpr hpx]⟩

theorem isEmpty_false_of_all_false (row : List String)
    (h : row.all isBlankCell = false) : row.isEmpty = false := by
  cases row with
  | nil => simp at h
  | cons x xs => rfl

/-- C5 fails as stated: the single-cell row `["#"]` has fewer than 7 fields
and its one field is non-blank, yet it is skipped silently by the header
heuristic of line 66 (it contains `#`), with no diagnostic. -/
theorem c5_counterexample :
    ((["#"] : List String).length < 7) ∧ pyStrip "#" ≠ "" ∧
    rowOutcome 0 "EUR_USD_EURUSD_H1.txt" ["#"] = (none, none) := by
  refine ⟨by decide, by decide, by decide⟩

/-- C5 amended: for every line that is not entirely blank and none of whose
fields contains `#` or the substring `Time` (such header-like lines are
skipped silently), a malformed line — fewer than 7 fields, or at least 7
fields with a failing date/time normalization or numeric parse — is
reported with a diagnostic naming the line number and the entry and is
skipped; processing continues with the next line of the entry unchanged, so
no malformed line aborts the entry. -/
theorem c5_malformed_line_amended :
    ∀ (i : Nat) (name : String) (row : List String),
      row.all isBlankCell = false →
      row.any hasHash = false → row.any hasTimeSub = false →
      ((row.length < 7 →
          rowOutcome i name row =
            (none, some (Diag.shortRow (i + 1) name row.length))) ∧
       (7 ≤ row.length → parseFields row = none →
          rowOutcome i name row =
            (none, some (Diag.parseError (i + 1) name row))) ∧
       (∀ (tbl : String) (db : DB) (batch : List PriceRecord)
          (rest : List (List String)),
          (rowOutcome i name row).1 = none →
          processLines name tbl i db batch (row :: rest) =
            ((processLines name tbl (i + 1) db batch rest).1,
             (rowOutcome i name row).2.toList ++
               (processLines name tbl (i + 1) db batch rest).2))) := by
  intro i name row hall hhash htime
  have hempty : row.isEmpty = false := isEmpty_false_of_all_false row hall
  refine ⟨fun hlt => ?_, fun hge hpf => ?_, fun tbl db batch rest h1 => ?_⟩
  · have hnb := any_not_blank_of_all_false row hall
    simp [rowOutcome, hempty, hall, hhash, htime, hlt, hnb]
  · have hnlt : ¬ row.length < 7 := by omega
    simp [rowOutcome, hempty, hall, hhash, htime, hnlt, hpf]
  · cases hE : rowOutcome i name row with
    | mk fst snd =>
      have hfst : fst = none := by
        have := congrArg Prod.fst hE
        simp at this
        rw [← this, h1]
      subst hfst
      simp [processLines, hE]

/-- Witness for the amended C5: a 2-column data row is reported with a
`shortRow` diagnostic carrying its line number and entry. -/
theorem c5_malformed_line_witness :
    (["a", "b"] : List String).all isBlankCell = false ∧
    (["a", "b"] : List String).any hasHash = false ∧
    (["a", "b"] : List String).any hasTimeSub = false ∧
    rowOutcome 3 "entry.txt" ["a", "b"] =
      (none, some (Diag.shortRow 4 "entry.txt" 2)) :=
  ⟨by decide, by decide, by decide,
   (c5_malformed_line_amended 3 "entry.txt" ["a", "b"]
     (by decide) (by decide) (by decide)).1 (by decide)⟩

/-! ### The database invariant machinery (used by C4, C6, C10) -/

/-- A per-table predicate `P` holds on every table of the store. -/
def DBInv (P : Table → Prop) (db : DB) : Prop :=
  ∀ t tb, dbLookup db t = some tb → P tb

theorem DBInv_nil (P : Table → Prop) : DBInv P [] := by
  intro t tb h
  exact Option.noConfusion h

theorem dbLookup_append_one (db : DB) (n t : String) (tbl0 tb : Table)
    (h : dbLookup (db ++ [(n, tbl0)]) t = some tb) :
    dbLookup db t = some tb ∨ (t = n ∧ tb = tbl0) := by
  induction db with
  | nil =>
    by_cases ht : n = t
    · simp only [List.nil_append, dbLookup, ht, if_true, Option.some.injEq] at h
      exact Or.inr ⟨ht.symm, h.symm⟩
    · simp [dbLookup, ht] at h
  | cons e rest ih =>
    by_cases ht : e.1 = t
    · simp only [List.cons_append, dbLookup, ht, if_true] at h ⊢
      exact Or.inl h
    · simp only [List.cons_append, dbLookup, ht, if_false] at h ⊢
      exact ih h

theorem DBInv_createTable (P : Table → Prop) (hE : P []) (db : DB) (n : String)
    (hdb : DBInv P db) : DBInv P (createTable db n) := by
  intro t tb h
  unfold createTable at h
  split at h
  · exact hdb t tb h
  · rcases dbLookup_append_one db n t [] tb h with h' | ⟨_, h2⟩
    · exact hdb t tb h'
    · rw [h2]
      exact hE

theorem dbLookup_dbInsert_ne (db : DB) (n t : String)
    (batch : List PriceRecord) (h : t ≠ n) :
    dbLookup (dbInsert db n batch) t = dbLookup db t := by
  induction db with
  | nil => rfl
  | cons e rest ih =>
    simp only [dbInsert, List.map_cons, dbLookup]
    have hhead : (if e.1 = n then (e.1, insertBatch e.2 batch) else e).1 = e.1 := by
      split <;> rfl
    rw [hhead]
    by_cases het : e.1 = t
    · have hen : ¬ e.1 = n := fun hh => h (by rw [← het]; exact hh)
      simp only [if_pos het, if_neg hen]
    · simp only [if_neg het]
      simpa only [dbInsert] using ih

theorem dbLookup_dbInsert_eq (db : DB) (n : String) (batch : List PriceRecord) :
    dbLookup (dbInsert db n batch) n =
      (dbLookup db n).map (fun tb => insertBatch tb batch) := by
  induction db with
  | nil => rfl
  | cons e rest ih =>
    simp only [dbInsert, List.map_cons, dbLookup]
    have hhead : (if e.1 = n then (e.1, insertBatch e.2 batch) else e).1 = e.1 := by
      split <;> rfl
    rw [hhead]
    by_cases hen : e.1 = n
    · simp only [if_pos hen]
      rfl
    · simp only [if_neg hen]
      simpa only [dbInsert] using ih

theorem insertBatch_pres (P : Table → Prop) (R : PriceRecord → Prop)
    (hIns : ∀ tbl r, P tbl → R r → P (insertOrIgnore tbl r)) :
    ∀ (batch : List PriceRecord) (tbl : Table), P tbl → (∀ r ∈ batch, R r) →
      P (insertBatch tbl batch) := by
  intro batch
  induction batch with
  | nil =>
    intro tbl hP _
    exact hP
  | cons b bs ih =>
    intro tbl hP hR
    have : insertBatch tbl (b :: bs) = insertBatch (insertOrIgnore tbl b) bs := rfl
    rw [this]
    exact ih (insertOrIgnore tbl b)
      (hIns tbl b hP (hR b (List.mem_cons_self b bs)))
      (fun r hr => hR r (List.mem_cons_of_mem b hr))

theorem DBInv_dbInsert (P : Table → Prop) (R : PriceRecord → Prop)
    (hIns : ∀ tbl r, P tbl → R r → P (insertOrIgnore tbl r))
    (db : DB) (n : String) (batch : List PriceRecord)
    (hdb : DBInv P db) (hb : ∀ r ∈ batch, R r) : DBInv P (dbInsert db n batch) := by
  intro t tb h
  by_cases htn : t = n
  · rw [htn, dbLookup_dbInsert_eq] at h
    cases hdl : dbLookup db n with
    | none => rw [hdl] at h; exact Option.noConfusion h
    | some tb0 =>
      rw [hdl] at h
      simp at h
      rw [← h]
      exact insertBatch_pres P R hIns batch tb0 (hdb n tb0 hdl) hb
  · rw [dbLookup_dbInsert_ne db n t batch htn] at h
    exact hdb t tb h

theorem DBInv_processLines (P : Table → Prop) (R : PriceRecord → Prop)
    (hPnil : P [])
    (hIns : ∀ tbl r, P tbl → R r → P (insertOrIgnore tbl r))
    (hRow : ∀ i name row rec, (rowOutcome i name row).1 = some rec → R rec) :
    ∀ (rows : List (List String)) (name tbl : String) (i : Nat) (db : DB)
      (batch : List PriceRecord),
      DBInv P db → (∀ r ∈ batch, R r) →
      DBInv P (processLines name tbl i db batch rows).1 := by
  intro rows
  induction rows with
  | nil =>
    intro name tbl i db batch hdb hb
    simp only [processLines]
    split
    · exact hdb
    · exact DBInv_dbInsert P R hIns db tbl batch hdb hb
  | cons row rest ih =>
    intro name tbl i db batch hdb hb
    cases hE2 : rowOutcome i name row with
    | mk fst snd =>
      cases fst with
      | some rec =>
        have hrec : R rec := hRow i name row rec (by rw [hE2])
        have hb2 : ∀ r ∈ batch ++ [rec], R r := by
          intro r hr
          rcases List.mem_append.mp hr with h | h
          · exact hb r h
          · rw [List.mem_singleton.mp h]
            exact hrec
        simp only [processLines, hE2]
        split
        · exact ih name tbl (i + 1) (dbInsert db tbl (batch ++ [rec])) []
            (DBInv_dbInsert P R hIns db tbl (batch ++ [rec]) hdb hb2)
            (by intro r hr; exact absurd hr (List.not_mem_nil r))
        · exact ih name tbl (i + 1) db (batch ++ [rec]) hdb hb2
      | none =>
        simp only [processLines, hE2]
        exact ih name tbl (i + 1) db batch hdb hb

theorem DBInv_processEntry (P : Table → Prop) (R : PriceRecord → Prop)
    (hPnil : P [])
    (hIns : ∀ tbl r, P tbl → R r → P (insertOrIgnore tbl r))
    (hRow : ∀ i name row rec, (rowOutcome i name row).1 = some rec → R rec)
    (db : DB) (e : ZEntry) (hdb : DBInv P db) : DBInv P (processEntry db e).1 := by
  unfold processEntry
  split
  · exact hdb
  · cases hT : tableNameOf e.1 with
    | none => simp only [hT]; exact hdb
    | some tbl =>
      simp only [hT]
      exact DBInv_processLines P R hPnil hIns hRow (e.2.map lineToRow) e.1 tbl 0
        (createTable db tbl) []
        (DBInv_createTable P hPnil db tbl hdb)
        (by intro r hr; exact absurd hr (List.not_mem_nil r))

theorem DBInv_foldlEntries (P : Table → Prop) (R : PriceRecord → Prop)
    (hPnil : P [])
    (hIns : ∀ tbl r, P tbl → R r → P (insertOrIgnore tbl r))
    (hRow : ∀ i name row rec, (rowOutcome i name row).1 = some rec → R rec) :
    ∀ (entries : List ZEntry) (acc : DB × List Diag), DBInv P acc.1 →
      DBInv P (entries.foldl
        (fun acc e =>
          let r := processEntry acc.1 e
          (r.1, acc.2 ++ r.2)) acc).1 := by
  intro entries
  induction entries with
  | nil =>
    intro acc hdb
    exact hdb
  | cons e rest ih =>
    intro acc hdb
    exact ih _ (DBInv_processEntry P R hPnil hIns hRow acc.1 e hdb)

theorem DBInv_processZip (P : Table → Prop) (R : PriceRecord → Prop)
    (hPnil : P [])
    (hIns : ∀ tbl r, P tbl → R r → P (insertOrIgnore tbl r))
    (hRow : ∀ i name row rec, (rowOutcome i name row).1 = some rec → R rec)
    (db : DB) (path : String) (arc : ZArchive) (hdb : DBInv P db) :
    DBInv P (processZip db path arc).1 := by
  cases arc with
  | none => exact hdb
  | some entries =>
    exact DBInv_foldlEntries P R hPnil hIns hRow entries (db, []) hdb

theorem DBInv_runArchives (P : Table → Prop) (R : PriceRecord → Prop)
    (hPnil : P [])
    (hIns : ∀ tbl r, P tbl → R r → P (insertOrIgnore tbl r))
    (hRow : ∀ i name row rec, (rowOutcome i name row).1 = some rec → R rec) :
    ∀ (arcs : List (String × ZArchive)) (db : DB), DBInv P db →
      DBInv P (runArchives db arcs).1 := by
  intro arcs
  induction arcs with
  | nil =>
    intro db hdb
    exact hdb
  | cons a rest ih =>
    intro db hdb
    exact ih _ (DBInv_processZip P R hPnil hIns hRow db a.1 a.2 hdb)

theorem DBInv_mainRun (P : Table → Prop) (R : PriceRecord → Prop)
    (hPnil : P [])
    (hIns : ∀ tbl r, P tbl → R r → P (insertOrIgnore tbl r))
    (hRow : ∀ i name row rec, (rowOutcome i name row).1 = some rec → R rec)
    (prior : DB) (fs : String → ZArchive) (listing : List String) :
    DBInv P (mainRun prior fs listing).1 :=
  DBInv_runArchives P R hPnil hIns hRow _ [] (DBInv_nil P)

/-! ### C4 -/

theorem keyOf_eq_of_keyMatch (a b : PriceRecord) (h : keyMatch a b = true) :
    keyOf a = keyOf b := by
  simp only [keyMatch, Bool.and_eq_true, beq_iff_eq] at h
  simp [keyOf, h.1, h.2]

theorem uniq_insertOrIgnore (tbl : Table) (r : PriceRecord)
    (h : uniqKeys tbl) : uniqKeys (insertOrIgnore tbl r) := by
  unfold insertOrIgnore
  split
  · exact h
  · rename_i hany
    have hnot : keyOf r ∉ tbl.map keyOf := by
      intro hmem
      rw [List.mem_map] at hmem
      obtain ⟨r0, hr0, hk⟩ := hmem
      have hkm : keyMatch r0 r = true := by
        simp only [keyOf, Prod.mk.injEq] at hk
        simp [keyMatch, hk.1, hk.2]
      have hx : tbl.any (fun r0 => keyMatch r0 r) = true :=
        List.any_eq_true.mpr ⟨r0, hr0, hkm⟩
      simp [hx] at hany
    unfold uniqKeys
    rw [List.map_append, List.nodup_append]
    exact ⟨h, List.nodup_singleton _, by simpa using hnot⟩

/-- C4: `(date, time)` is unique within every table.  First conjunct: one
`INSERT OR IGNORE` preserves the uniqueness invariant; second: so does a
whole batch insert; third: inserting two records with the same `(date,
time)` key (different prices or not) keeps only the first, the second is
dropped without overwriting; fourth: every table of the store produced by a
whole run satisfies the invariant. -/
theorem c4_unique_key_invariant :
    (∀ (tbl : Table) (r : PriceRecord),
      uniqKeys tbl → uniqKeys (insertOrIgnore tbl r)) ∧
    (∀ (tbl : Table) (batch : List PriceRecord),
      uniqKeys tbl → uniqKeys (insertBatch tbl batch)) ∧
    (∀ r1 r2 : PriceRecord, r1.date = r2.date → r1.time = r2.time →
      insertBatch [] [r1, r2] = [r1]) ∧
    (∀ (prior : DB) (fs : String → ZArchive) (listing : List String)
      (t : String) (tb : Table),
      dbLookup (mainRun prior fs listing).1 t = some tb → uniqKeys tb) := by
  refine ⟨uniq_insertOrIgnore, fun tbl batch h => ?_, fun r1 r2 h1 h2 => ?_,
    fun prior fs listing t tb h => ?_⟩
  · exact insertBatch_pres uniqKeys (fun _ => True)
      (fun tbl r hP _ => uniq_insertOrIgnore tbl r hP) batch tbl h
      (fun _ _ => trivial)
  · simp [insertBatch, List.foldl, insertOrIgnore, keyMatch, h1, h2]
  · exact DBInv_mainRun uniqKeys (fun _ => True)
      (by simp [uniqKeys])
      (fun tbl r hP _ => uniq_insertOrIgnore tbl r hP)
      (fun _ _ _ _ _ => trivial)
      prior fs listing t tb h

/-- Witness for C4: two concrete records sharing `(date, time)` but with
different prices; the batch insert retains only the first. -/
theorem c4_unique_key_invariant_witness :
    (⟨"20230501", "134500", mkRat 11 10, 1, 1, 1, 10⟩ : PriceRecord).date =
      (⟨"20230501", "134500", mkRat 9 10, 2, 2, 2, 20⟩ : PriceRecord).date ∧
    (⟨"20230501", "134500", mkRat 11 10, 1, 1, 1, 10⟩ : PriceRecord).time =
      (⟨"20230501", "134500", mkRat 9 10, 2, 2, 2, 20⟩ : PriceRecord).time ∧
    insertBatch []
        [⟨"20230501", "134500", mkRat 11 10, 1, 1, 1, 10⟩,
         ⟨"20230501", "134500", mkRat 9 10, 2, 2, 2, 20⟩] =
      [⟨"20230501", "134500", mkRat 11 10, 1, 1, 1, 10⟩] :=
  ⟨rfl, rfl, c4_unique_key_invariant.2.2.1 _ _ rfl rfl⟩

/-! ### C6 -/

theorem dateNorm_length (s d : String) (h : dateNorm s = some d) :
    d.length = 8 := by
  by_cases h8 : (String.mk (removeCharList '.' (pyStrip s).toList)).length = 8
  · simp only [dateNorm, length_mk_list] at h
    rw [if_pos (by simpa [length_mk_list] using h8)] at h
    rw [← (Option.some.injEq _ _).mp h]
    exact h8
  · simp only [dateNorm, length_mk_list] at h
    rw [if_neg (by simpa [length_mk_list] using h8)] at h
    exact Option.noConfusion h

theorem timeNorm_length (s d : String) (h : timeNorm s = some d) :
    d.length = 6 := by
  simp only [timeNorm] at h
  split at h
  · split at h
    · rename_i h6
      rw [← (Option.some.injEq _ _).mp h]
      exact h6
    · exact Option.noConfusion h
  · split at h
    · rename_i h6
      rw [← (Option.some.injEq _ _).mp h]
      exact h6
    · exact Option.noConfusion h

theorem parseFields_shape (row : List String) (rec : PriceRecord)
    (h : parseFields row = some rec) :
    rec.date.length = 8 ∧ rec.time.length = 6 := by
  unfold parseFields at h
  split at h
  · rename_i d t o hh lo c v hd ht ho hhh hlo hc hv
    rw [← (Option.some.injEq _ _).mp h]
    exact ⟨dateNorm_length _ _ hd, timeNorm_length _ _ ht⟩
  all_goals exact Option.noConfusion h

theorem rowOutcome_shape (i : Nat) (name : String) (row : List String)
    (rec : PriceRecord) (h : (rowOutcome i name row).1 = some rec) :
    rec.date.length = 8 ∧ rec.time.length = 6 := by
  unfold rowOutcome at h
  split at h
  · exact Option.noConfusion h
  · split at h
    · exact Option.noConfusion h
    · split at h
      · exact Option.noConfusion h
      · split at h
        · split at h <;> exact Option.noConfusion h
        · rename_i hx
          cases hpf : parseFields row with
          | none => rw [hpf] at h; exact Option.noConfusion h
          | some rec0 =>
            rw [hpf] at h
            simp at h
            rw [← h]
            exact parseFields_shape row rec0 hpf

theorem mem_insertOrIgnore (tbl : Table) (r a : PriceRecord)
    (h : a ∈ insertOrIgnore tbl r) : a ∈ tbl ∨ a = r := by
  unfold insertOrIgnore at h
  split at h
  · exact Or.inl h
  · rcases List.mem_append.mp h with h' | h'
    · exact Or.inl h'
    · exact Or.inr (List.mem_singleton.mp h')

/-- C6 fails as stated: the code checks only the length of the normalized
date, not digitness, so the row `"abcdefgh,134500,1,1,1,1,1"` stores a
record whose date is the non-numeric 8-character string `"abcdefgh"`. -/
theorem c6_counterexample :
    dbLookup (processEntry []
        ("EUR_USD_EURUSD_H1.txt", ["abcdefgh,134500,1,1,1,1,1"])).1
        "EURUSD_H1" =
      some [⟨"abcdefgh", "134500", 1, 1, 1, 1, 1⟩] ∧
    ("abcdefgh").toList.all Char.isDigit = false := by
  exact ⟨by decide, by decide⟩

/-- C6 amended: every record stored in the database has the shape
`(date: 8-character string, time: 6-character string, open/high/low/close:
float, volume: integer)` — the prices are `ℚ` values and the volume an `Int`
by construction (`truncToInt` of a parsed float), and the stored date and
time always have exactly 8 and 6 characters; the code does not check that
they are digits. -/
theorem c6_record_shape_amended :
    ∀ (prior : DB) (fs : String → ZArchive) (listing : List String)
      (t : String) (tb : Table) (r : PriceRecord),
      dbLookup (mainRun prior fs listing).1 t = some tb → r ∈ tb →
      r.date.length = 8 ∧ r.time.length = 6 := by
  intro prior fs listing t tb r hlook hmem
  have := DBInv_mainRun
    (fun tb => ∀ r ∈ tb, r.date.length = 8 ∧ r.time.length = 6)
    (fun r => r.date.length = 8 ∧ r.time.length = 6)
    (by intro r hr; exact absurd hr (List.not_mem_nil r))
    (by
      intro tbl r0 hP hR a ha
      rcases mem_insertOrIgnore tbl r0 a ha with h' | h'
      · exact hP a h'
      · rw [h']
        exact hR)
    rowOutcome_shape
    prior fs listing t tb hlook
  exact this r hmem

/-- Witness for the amended C6 on a one-archive, one-entry, one-line run. -/
theorem c6_record_shape_witness :
    dbLookup (mainRun []
        (fun p => if p = "a.zip"
          then some [("EUR_USD_EURUSD_H1.txt",
            ["2023.05.01,13:45,1.1,1.2,1.05,1.15,1000"])]
          else none)
        ["a.zip"]).1 "EURUSD_H1" =
      some [⟨"20230501", "134500", mkRat 11 10, mkRat 6 5, mkRat 21 20,
        mkRat 23 20, 1000⟩] ∧
    ("20230501" : String).length = 8 ∧ ("134500" : String).length = 6 :=
  ⟨by decide,
   c6_record_shape_amended []
     (fun p => if p = "a.zip"
       then some [("EUR_USD_EURUSD_H1.txt",
         ["2023.05.01,13:45,1.1,1.2,1.05,1.15,1000"])]
       else none)
     ["a.zip"] "EURUSD_H1"
     [⟨"20230501", "134500", mkRat 11 10, mkRat 6 5, mkRat 21 20,
       mkRat 23 20, 1000⟩]
     ⟨"20230501", "134500", mkRat 11 10, mkRat 6 5, mkRat 21 20,
       mkRat 23 20, 1000⟩
     (by decide) (by decide)⟩

/-! ### C10 -/

theorem dbLookup_append_self (db : DB) (n : String) (tbl0 : Table)
    (h : dbLookup db n = none) :
    dbLookup (db ++ [(n, tbl0)]) n = some tbl0 := by
  induction db with
  | nil => simp [dbLookup]
  | cons e rest ih =>
    simp only [dbLookup] at h
    by_cases he : e.1 = n
    · rw [if_pos he] at h
      exact Option.noConfusion h
    · rw [if_neg he] at h
      simp only [List.cons_append, dbLookup, if_neg he]
      exact ih h

theorem lookup_createTable_self (db : DB) (n : String) :
    (dbLookup (createTable db n) n).isSome = true := by
  unfold createTable
  split
  · assumption
  · rename_i hnone
    rw [dbLookup_append_self db n [] (Option.not_isSome_iff_eq_none.mp hnone)]
    rfl

theorem lookup_isSome_dbInsert (db : DB) (n t : String)
    (batch : List PriceRecord) (h : (dbLookup db t).isSome = true) :
    (dbLookup (dbInsert db n batch) t).isSome = true := by
  by_cases htn : t = n
  · rw [htn, dbLookup_dbInsert_eq]
    rw [htn] at h
    simpa using h
  · rw [dbLookup_dbInsert_ne db n t batch htn]
    exact h

theorem lookup_isSome_processLines :
    ∀ (rows : List (List String)) (name tbl : String) (i : Nat) (db : DB)
      (batch : List PriceRecord) (t : String),
      (dbLookup db t).isSome = true →
      (dbLookup (processLines name tbl i db batch rows).1 t).isSome = true := by
  intro rows
  induction rows with
  | nil =>
    intro name tbl i db batch t h
    simp only [processLines]
    split
    · exact h
    · exact lookup_isSome_dbInsert db tbl t batch h
  | cons row rest ih =>
    intro name tbl i db batch t h
    cases hE2 : rowOutcome i name row with
    | mk fst snd =>
      cases fst with
      | some rec =>
        simp only [processLines, hE2]
        split
        · exact ih name tbl (i + 1) _ [] t
            (lookup_isSome_dbInsert db tbl t (batch ++ [rec]) h)
        · exact ih name tbl (i + 1) db (batch ++ [rec]) t h
      | none =>
        simp only [processLines, hE2]
        exact ih name tbl (i + 1) db batch t h

/-- C10: for every `.txt` entry whose base filename has at least 4
`_`-separated segments (equivalently, whose table name derivation
succeeds), the destination table exists in the store after the entry is
processed, whatever the entry's content — in particular also when the
content is empty or every line fails to parse, leaving an empty table. -/
theorem c10_table_created_up_front :
    ∀ (db : DB) (name : String) (lines : List String) (t : String),
      pyEndsWith name ".txt" = true → tableNameOf name = some t →
      (dbLookup (processEntry db (name, lines)).1 t).isSome = true := by
  intro db name lines t htxt htn
  unfold processEntry
  rw [if_neg (by simp [htxt])]
  simp only [htn]
  exact lookup_isSome_processLines (lines.map lineToRow) name t 0
    (createTable db t) [] t (lookup_createTable_self db t)

/-- Witness for C10: an empty `.txt` entry still leaves its (empty) table
behind. -/
theorem c10_table_created_witness :
    pyEndsWith "EUR_USD_EURUSD_H1.txt" ".txt" = true ∧
    tableNameOf "EUR_USD_EURUSD_H1.txt" = some "EURUSD_H1" ∧
    (dbLookup (processEntry [] ("EUR_USD_EURUSD_H1.txt", [])).1
      "EURUSD_H1").isSome = true :=
  ⟨by decide, by decide,
   c10_table_created_up_front [] "EUR_USD_EURUSD_H1.txt" [] "EURUSD_H1"
     (by decide) (by decide)⟩

/-! ### C7 -/

theorem rowOutcome_diag_not_corrupt (i : Nat) (name : String)
    (row : List String) (d : Diag) (h : (rowOutcome i name row).2 = some d) :
    isCorruptDiag d = false := by
  unfold rowOutcome at h
  split at h
  · exact Option.noConfusion h
  · split at h
    · exact Option.noConfusion h
    · split at h
      · exact Option.noConfusion h
      · split at h
        · split at h
          · rw [← (Option.some.injEq _ _).mp h]
            rfl
          · exact Option.noConfusion h
        · split at h
          · exact Option.noConfusion h
          · rw [← (Option.some.injEq _ _).mp h]
            rfl

theorem processLines_diag_not_corrupt :
    ∀ (rows : List (List String)) (name tbl : String) (i : Nat) (db : DB)
      (batch : List PriceRecord) (d : Diag),
      d ∈ (processLines name tbl i db batch rows).2 → isCorruptDiag d = false := by
  intro rows
  induction rows with
  | nil =>
    intro name tbl i db batch d hd
    simp only [processLines] at hd
    exact absurd hd (List.not_mem_nil d)
  | cons row rest ih =>
    intro name tbl i db batch d hd
    cases hE2 : rowOutcome i name row with
    | mk fst snd =>
      cases fst with
      | some rec =>
        simp only [processLines, hE2] at hd
        split at hd
        · exact ih name tbl (i + 1) _ [] d hd
        · exact ih name tbl (i + 1) db _ d hd
      | none =>
        simp only [processLines, hE2] at hd
        rcases List.mem_append.mp hd with h' | h'
        · cases snd with
          | none => simp [Option.toList] at h'
          | some d0 =>
            simp only [Option.toList, List.mem_singleton] at h'
            rw [h']
            exact rowOutcome_diag_not_corrupt i name row d0 (by rw [hE2])
        · exact ih name tbl (i + 1) db batch d h'

theorem processEntry_diag_not_corrupt (db : DB) (e : ZEntry) (d : Diag)
    (hd : d ∈ (processEntry db e).2) : isCorruptDiag d = false := by
  unfold processEntry at hd
  split at hd
  · exact absurd hd (List.not_mem_nil d)
  · cases hT : tableNameOf e.1 with
    | none =>
      simp only [hT, List.mem_singleton] at hd
      rw [hd]
      rfl
    | some tbl =>
      simp only [hT] at hd
      exact processLines_diag_not_corrupt (e.2.map lineToRow) e.1 tbl 0
        (createTable db tbl) [] d hd

theorem foldlEntries_diag_not_corrupt :
    ∀ (entries : List ZEntry) (acc : DB × List Diag) (d : Diag),
      (∀ d0 ∈ acc.2, isCorruptDiag d0 = false) →
      d ∈ (entries.foldl
        (fun acc e =>
          let r := processEntry acc.1 e
          (r.1, acc.2 ++ r.2)) acc).2 →
      isCorruptDiag d = false := by
  intro entries
  induction entries with
  | nil =>
    intro acc d hacc hd
    exact hacc d hd
  | cons e rest ih =>
    intro acc d hacc hd
    refine ih _ d ?_ hd
    intro d0 hd0
    rcases List.mem_append.mp hd0 with h' | h'
    · exact hacc d0 h'
    · exact processEntry_diag_not_corrupt acc.1 e d0 h'

theorem processZip_some_count (db : DB) (path : String) (entries : List ZEntry) :
    ((processZip db path (some entries)).2.countP isCorruptDiag) = 0 := by
  rw [List.countP_eq_zero]
  intro d hd
  simp only [Bool.not_eq_true]
  exact foldlEntries_diag_not_corrupt entries (db, []) d
    (by intro d0 hd0; exact absurd hd0 (List.not_mem_nil d0)) hd

theorem runArchives_count :
    ∀ (arcs : List (String × ZArchive)) (db : DB),
      (runArchives db arcs).2.countP isCorruptDiag =
        arcs.countP (fun a => a.2.isNone) := by
  intro arcs
  induction arcs with
  | nil =>
    intro db
    rfl
  | cons a rest ih =>
    intro db
    cases ha : a.2 with
    | none =>
      have hc : isCorruptDiag (Diag.corruptZip a.1) = true := rfl
      simp [runArchives, ha, processZip, List.countP_append, List.countP_cons,
        List.countP_nil, hc, ih db]
    | some entries =>
      simp only [runArchives, ha, List.countP_append, List.countP_cons]
      rw [ih ((processZip db a.1 (some entries)).1)]
      have h0 := processZip_some_count db a.1 entries
      simp [ha, h0]

theorem runArchives_skip_corrupt :
    ∀ (arcs : List (String × ZArchive)) (db : DB),
      (runArchives db arcs).1 =
        (runArchives db (arcs.filter (fun a => a.2.isSome))).1 := by
  intro arcs
  induction arcs with
  | nil =>
    intro db
    rfl
  | cons a rest ih =>
    intro db
    cases ha : a.2 with
    | none =>
      have hfa : (a.2.isSome : Bool) = false := by rw [ha]; rfl
      simp only [runArchives, ha, processZip, List.filter_cons, hfa, if_false]
      exact ih db
    | some entries =>
      have hfa : (a.2.isSome : Bool) = true := by rw [ha]; rfl
      simp only [runArchives, List.filter_cons, hfa, if_true, ha]
      exact ih ((processZip db a.1 (some entries)).1)

theorem filter_length_isSome :
    ∀ arcs : List (String × ZArchive),
      (arcs.filter (fun a => a.2.isSome)).length +
        arcs.countP (fun a => a.2.isNone) = arcs.length := by
  intro arcs
  induction arcs with
  | nil => rfl
  | cons a rest ih =>
    cases ha : a.2 with
    | none =>
      have h1 : (a.2.isSome : Bool) = false := by rw [ha]; rfl
      have h2 : (a.2.isNone : Bool) = true := by rw [ha]; rfl
      simp [List.filter_cons, List.countP_cons, h1, h2]
      omega
    | some entries =>
      have h1 : (a.2.isSome : Bool) = true := by rw [ha]; rfl
      have h2 : (a.2.isNone : Bool) = false := by rw [ha]; rfl
      simp [List.filter_cons, List.countP_cons, h1, h2]
      omega

/-- C7: in a list of archives of which exactly one is corrupted, the run
emits exactly one corrupted-archive diagnostic, and the resulting store is
the one obtained by fully processing the other N−1 archives in order (the
corrupted archive is skipped, never fatal). -/
theorem c7_corrupted_archive :
    ∀ (db : DB) (arcs : List (String × ZArchive)),
      arcs.countP (fun a => a.2.isNone) = 1 →
      ((runArchives db arcs).2.countP isCorruptDiag = 1 ∧
       (runArchives db arcs).1 =
         (runArchives db (arcs.filter (fun a => a.2.isSome))).1 ∧
       (arcs.filter (fun a => a.2.isSome)).length + 1 = arcs.length) := by
  intro db arcs h1
  refine ⟨?_, runArchives_skip_corrupt arcs db, ?_⟩
  · rw [runArchives_count arcs db, h1]
  · have := filter_length_isSome arcs
    omega

/-- Witness for C7: two archives, the second corrupted. -/
theorem c7_corrupted_archive_witness :
    (([(("a.zip", some []) : String × ZArchive), ("b.zip", none)]).countP
      (fun a => a.2.isNone) = 1) ∧
    ((runArchives []
        [(("a.zip", some []) : String × ZArchive), ("b.zip", none)]).2.countP
      isCorruptDiag = 1) :=
  ⟨by decide,
   (c7_corrupted_archive []
     [(("a.zip", some []) : String × ZArchive), ("b.zip", none)]
     (by decide)).1⟩

/-! ### C8 -/

/-- C8: the run is a pure function of the input archives: the store is
wiped at start (`init_db` deletes the file), so any prior store contents
`p1`, `p2` are irrelevant, and the archive list is sorted before
processing, so any two directory enumeration orders (permutations of each
other) give identical stores and diagnostics — re-running on unchanged
input reproduces the rows exactly. -/
theorem c8_rerun_deterministic :
    ∀ (fs : String → ZArchive) (l1 l2 : List String) (p1 p2 : DB),
      l1.Perm l2 → mainRun p1 fs l1 = mainRun p2 fs l2 := by
  intro fs l1 l2 p1 p2 hperm
  unfold mainRun
  have hf : (l1.filter (fun f => pyEndsWith f ".zip")).Perm
      (l2.filter (fun f => pyEndsWith f ".zip")) := hperm.filter _
  have hs1 : List.Sorted (fun a b : String => a ≤ b)
      (List.insertionSort (fun a b => a ≤ b)
        (l1.filter (fun f => pyEndsWith f ".zip"))) :=
    List.sorted_insertionSort _ _
  have hs2 : List.Sorted (fun a b : String => a ≤ b)
      (List.insertionSort (fun a b => a ≤ b)
        (l2.filter (fun f => pyEndsWith f ".zip"))) :=
    List.sorted_insertionSort _ _
  have hsort := List.eq_of_perm_of_sorted
    ((List.perm_insertionSort _ _).trans
      (hf.trans (List.perm_insertionSort _ _).symm))
    hs1 hs2
  rw [hsort]

/-- Witness for C8: two enumeration orders of the same two paths and two
different prior stores give the same run result. -/
theorem c8_rerun_deterministic_witness :
    (["b.zip", "a.zip"] : List String).Perm ["a.zip", "b.zip"] ∧
    mainRun [] (fun _ => none) ["b.zip", "a.zip"] =
      mainRun [("X", [])] (fun _ => none) ["a.zip", "b.zip"] :=
  ⟨by decide,
   c8_rerun_deterministic (fun _ => none) ["b.zip", "a.zip"]
     ["a.zip", "b.zip"] [] [("X", [])] (by decide)⟩

end ZipToSqlite
